import Mathlib

/-!
Verification of the benchmark comparison pipeline of the
jostle-bc-crypto-benchmarking repository.

The data model follows visualizer/src/types/benchmark.ts; display logic is
embedded from visualizer/src/components/BenchmarkTable.tsx,
BenchmarkChart.tsx, BenchmarkView.tsx, Sidebar.tsx and
visualizer/src/utils/formatters.ts; the JMH harness provider selection is
embedded from src/main/java/com/benchmark/CryptoBenchmark.java.
JavaScript numbers are modelled as rationals.
-/

/-- JmhMode from types/benchmark.ts: thrpt, avgt, ss, sample. -/
inductive JmhMode : Type where
  | thrpt
  | avgt
  | ss
  | sample
deriving DecidableEq, Repr

/-- Provider from types/benchmark.ts: BC or Jostle. -/
inductive Provider : Type where
  | BC
  | Jostle
deriving DecidableEq, Repr

/-- BenchmarkCategory from types/benchmark.ts: PQC, KDF, Symmetric. -/
inductive BenchmarkCategory : Type where
  | PQC
  | KDF
  | Symmetric
deriving DecidableEq, Repr

/-- ParsedBenchmark from types/benchmark.ts: one classified record.  The
rawData field of the original type is not repeated here since this record is
itself the classified view of the raw JMH result. -/
structure ParsedBenchmark : Type where
  id : String
  category : BenchmarkCategory
  algorithm : String
  operation : String
  variant : String
  mode : Option String
  cipherMode : Option String
  padding : Option String
  hashAlgorithm : Option String
  iterations : Option String
  jmhMode : JmhMode
  provider : Provider
  score : ℚ
  scoreError : ℚ
  scoreUnit : String
deriving DecidableEq, Repr

/-- BenchmarkComparison from types/benchmark.ts: the paired entity.
The bcRaw and jostleRaw slots keep the contributing record of each side
(the original keeps the underlying raw JMH result; the parsed record stands
for it here). -/
structure BenchmarkComparison : Type where
  id : String
  category : BenchmarkCategory
  algorithm : String
  operation : String
  variant : String
  mode : Option String
  cipherMode : Option String
  padding : Option String
  hashAlgorithm : Option String
  iterations : Option String
  jmhMode : JmhMode
  bcScore : Option ℚ
  bcError : Option ℚ
  jostleScore : Option ℚ
  jostleError : Option ℚ
  scoreUnit : String
  bcRaw : Option ParsedBenchmark
  jostleRaw : Option ParsedBenchmark
deriving DecidableEq, Repr

/-- HierarchyNode from types/benchmark.ts: name, path, ordered children,
aggregated comparisons. -/
inductive HierarchyNode : Type where
  | mk (name : String) (path : String) (children : List HierarchyNode)
       (comparisons : List BenchmarkComparison) : HierarchyNode

def HierarchyNode.name : HierarchyNode → String
  | .mk n _ _ _ => n

def HierarchyNode.path : HierarchyNode → String
  | .mk _ p _ _ => p

def HierarchyNode.children : HierarchyNode → List HierarchyNode
  | .mk _ _ ch _ => ch

def HierarchyNode.comparisons : HierarchyNode → List BenchmarkComparison
  | .mk _ _ _ cs => cs

@[simp] theorem HierarchyNode.name_mk (n p : String) (ch : List HierarchyNode)
    (cs : List BenchmarkComparison) : (HierarchyNode.mk n p ch cs).name = n := rfl

@[simp] theorem HierarchyNode.path_mk (n p : String) (ch : List HierarchyNode)
    (cs : List BenchmarkComparison) : (HierarchyNode.mk n p ch cs).path = p := rfl

@[simp] theorem HierarchyNode.children_mk (n p : String) (ch : List HierarchyNode)
    (cs : List BenchmarkComparison) : (HierarchyNode.mk n p ch cs).children = ch := rfl

@[simp] theorem HierarchyNode.comparisons_mk (n p : String) (ch : List HierarchyNode)
    (cs : List BenchmarkComparison) : (HierarchyNode.mk n p ch cs).comparisons = cs := rfl

theorem HierarchyNode.sizeOf_children_lt (t : HierarchyNode) :
    sizeOf t.children < sizeOf t := by
  cases t with
  | mk n p ch cs => simp; omega

/-- Strong induction over the node tree: to prove a property of every node it
is enough to prove it assuming it for all children. -/
theorem HierarchyNode.strongInduction (P : HierarchyNode → Prop)
    (step : ∀ t : HierarchyNode, (∀ c ∈ t.children, P c) → P t) :
    ∀ t : HierarchyNode, P t := by
  have key : ∀ k : Nat, ∀ t : HierarchyNode, sizeOf t ≤ k → P t := by
    intro k
    induction k with
    | zero =>
      intro t ht
      cases t with
      | mk n p ch cs => simp at ht
    | succ k ih =>
      intro t ht
      apply step
      intro c hc
      apply ih
      have h1 : sizeOf c < sizeOf t.children := List.sizeOf_lt_of_mem hc
      have h2 : sizeOf t.children < sizeOf t := t.sizeOf_children_lt
      omega
  intro t
  exact key (sizeOf t) t le_rfl

/-- Decimal digit character, '0' to '9'. -/
def digitChar (n : Nat) : Char := Char.ofNat (48 + n)

/-- Decimal digits of a natural number, most significant first.  The fuel
argument bounds the recursion depth; natToDigits supplies enough fuel. -/
def natToDigitsAux : Nat → Nat → List Char
  | 0, _ => []
  | fuel + 1, n =>
    if n < 10 then [digitChar n]
    else natToDigitsAux fuel (n / 10) ++ [digitChar (n % 10)]

/-- Decimal representation of a natural number as characters. -/
def natToDigits (n : Nat) : List Char := natToDigitsAux (n + 1) n

/-- The integer nearest to q times the given power of ten, ties toward
positive infinity, as the JavaScript toFixed specification requires: the
floor of q.pow10 + 1/2, computed on numerator and denominator. -/
def jsRound (q : ℚ) (pow10 : Int) : Int :=
  Int.fdiv (2 * q.num * pow10 + (q.den : Int)) (2 * (q.den : Int))

/-- Left pad a digit list with zeros to the requested width. -/
def padZeros (s : List Char) (d : Nat) : List Char :=
  List.replicate (d - s.length) '0' ++ s

/-- Number.prototype.toFixed from JavaScript, on the rational model: the
value rendered with exactly d digits after the decimal point. -/
def jsToFixed (q : ℚ) (d : Nat) : String :=
  let scaled : Int := jsRound q ((10 : Int) ^ d)
  let a : Nat := scaled.natAbs
  let ip : Nat := a / 10 ^ d
  let fp : Nat := a % 10 ^ d
  (if scaled < 0 then "-" else "") ++ String.mk (natToDigits ip) ++
    (if d = 0 then "" else "." ++ String.mk (padZeros (natToDigits fp) d))

/-- toSuperscript from formatters.ts: maps digit, minus and plus characters
of the decimal representation to superscript characters. -/
def superscriptChar (c : Char) : Char :=
  if c = '0' then '⁰' else if c = '1' then '¹' else if c = '2' then '²'
  else if c = '3' then '³' else if c = '4' then '⁴' else if c = '5' then '⁵'
  else if c = '6' then '⁶' else if c = '7' then '⁷' else if c = '8' then '⁸'
  else if c = '9' then '⁹' else if c = '-' then '⁻' else if c = '+' then '⁺'
  else c

/-- Decimal representation of an integer as characters. -/
def intToChars (n : Int) : List Char :=
  if n < 0 then '-' :: natToDigits n.natAbs else natToDigits n.natAbs

/-- toSuperscript from formatters.ts applied to an integer. -/
def toSuperscript (n : Int) : String := String.mk ((intToChars n).map superscriptChar)

/-- Floor of the base 10 logarithm of the absolute value, the model of
Math.floor(Math.log10(Math.abs(value))).  The value 0, for which JavaScript
produces negative infinity, is mapped to 0; formatScoreValue never reaches
this function with 0. -/
def log10floor (q : ℚ) : Int :=
  let a : ℚ := if q < 0 then -q else q
  if a = 0 then 0
  else if 1 ≤ a then (Nat.log 10 (Int.fdiv a.num a.den).toNat : Int)
  else -((Nat.log 10 ((-(Int.fdiv (-(a⁻¹).num) (a⁻¹).den)).toNat - 1) : Int) + 1)

/-- formatPowerOfTen from formatters.ts: mantissa and power of ten. -/
def formatPowerOfTen (value : ℚ) (decimals : Nat) : String :=
  let exp : Int := log10floor value
  let mantissa : ℚ := value / (10 : ℚ) ^ exp
  jsToFixed mantissa decimals ++ " × 10" ++ toSuperscript exp

/-- formatScoreValue from formatters.ts: N/A for null, power of ten notation
for large (at least 1000) and small (strictly between 0 and 0.01) values,
fixed notation with the given number of decimals otherwise. -/
def formatScoreValue (value : Option ℚ) (decimals : Nat) : String :=
  match value with
  | none => "N/A"
  | some v =>
    if 1000 ≤ v ∨ (0 < v ∧ v < 1 / 100) then formatPowerOfTen v 4
    else jsToFixed v decimals

/-- formatErrorMargin from formatters.ts. -/
def formatErrorMargin (value : Option ℚ) : String :=
  match value with
  | none => "N/A"
  | some v => "+/- " ++ formatScoreValue (some v) 4

/-- formatRatio from formatters.ts: N/A for null, otherwise the value with
the given number of decimals followed by the letter x. -/
def formatRatio (value : Option ℚ) (decimals : Nat) : String :=
  match value with
  | none => "N/A"
  | some v => jsToFixed v decimals ++ "x"

/-- The specialCases table of formatAlgorithmName from formatters.ts, in
insertion order. -/
def specialCases : List (String × String) :=
  [("MlKem", "ML-KEM"), ("MlDsa", "ML-DSA"), ("SlhDsa", "SLH-DSA"),
   ("Pbkdf2", "PBKDF2"), ("Aes", "AES"), ("Sm4", "SM4"), ("Des", "DES"),
   ("TripleDes", "3DES"), ("Rsa", "RSA"), ("Ecdsa", "ECDSA"),
   ("Ecdh", "ECDH"), ("Sha256", "SHA-256"), ("Sha384", "SHA-384"),
   ("Sha512", "SHA-512"), ("Sha3", "SHA-3"), ("Hmac", "HMAC")]

/-- Whether the first character of the string is a decimal digit, the model
of the test with the regular expression matching a leading digit. -/
def startsWithDigit (s : String) : Bool :=
  match s.data with
  | [] => false
  | c :: _ => c.isDigit

/-- The fallback loop of formatAlgorithmName: the first table entry whose key
is a leading piece of the name rewrites it, keeping the suffix. -/
def algNameByKey : List (String × String) → String → String
  | [], name => name
  | (k, v) :: rest, name =>
    if k.isPrefixOf name then
      let suffix := name.drop k.length
      if suffix.startsWith "-" then v ++ suffix
      else if startsWithDigit suffix then v ++ "-" ++ suffix
      else v ++ suffix
    else algNameByKey rest name

/-- formatAlgorithmName from formatters.ts. -/
def formatAlgorithmName (name : String) : String :=
  match specialCases.lookup name with
  | some v => v
  | none => algNameByKey specialCases name

/-- The operationMap table of formatOperationName from formatters.ts. -/
def operationMap : List (String × String) :=
  [("keyGen", "Key Generation"), ("encrypt", "Encrypt"), ("decrypt", "Decrypt"),
   ("sign", "Sign"), ("verify", "Verify"), ("deriveKey", "Key Derivation"),
   ("encapsulate", "Encapsulate"), ("decapsulate", "Decapsulate")]

/-- formatOperationName from formatters.ts: table lookup, else the name with
the first character upper cased. -/
def formatOperationName (name : String) : String :=
  match operationMap.lookup name with
  | some v => v
  | none =>
    match name.data with
    | [] => ""
    | c :: rest => String.mk (c.toUpper :: rest)

/-- formatVariantName from formatters.ts. -/
def formatVariantName (name : String) : String :=
  if name = "default" then "Default" else formatAlgorithmName name

/-- One optional string pushed under a JavaScript truthiness guard: absent
and empty values contribute nothing. -/
def pushIfTruthy (o : Option String) : List String :=
  match o with
  | none => []
  | some s => if s = "" then [] else [s]

/-- The label context of formatLabel in BenchmarkChart.tsx: whether the
comparison set spans several algorithms or several operations. -/
structure LabelContext : Type where
  hasMultipleAlgorithms : Bool
  hasMultipleOperations : Bool
deriving DecidableEq, Repr

/-- Join label parts with the separator of BenchmarkChart.tsx. -/
def joinParts : List String → String
  | [] => ""
  | [s] => s
  | s :: rest => s ++ "  ·  " ++ joinParts rest

/-- The parts list assembled by formatLabel in BenchmarkChart.tsx (the same
logic renders the name cell of BenchmarkTable.tsx). -/
def labelParts (comparison : BenchmarkComparison) (context : LabelContext) : List String :=
  (if context.hasMultipleAlgorithms then [formatAlgorithmName comparison.algorithm] else []) ++
  (if context.hasMultipleOperations then [formatOperationName comparison.operation] else []) ++
  (match comparison.category with
   | .Symmetric =>
     [comparison.variant] ++ pushIfTruthy comparison.cipherMode ++
       pushIfTruthy comparison.padding
   | .KDF =>
     let kdfParts := pushIfTruthy comparison.hashAlgorithm ++
       pushIfTruthy comparison.iterations
     if (if context.hasMultipleAlgorithms then [formatAlgorithmName comparison.algorithm] else []) ++
        (if context.hasMultipleOperations then [formatOperationName comparison.operation] else []) ++
        kdfParts = [] then [comparison.variant] else kdfParts
   | .PQC =>
     if comparison.variant = "default" then []
     else if comparison.variant = "" then []
     else [formatVariantName comparison.variant])

/-- formatLabel from BenchmarkChart.tsx: the nonempty parts joined with the
dot separator. -/
def formatLabel (comparison : BenchmarkComparison) (context : LabelContext) : String :=
  joinParts ((labelParts comparison context).filter (fun s => s ≠ ""))

/-- The on-demand ratio of BenchmarkTable.tsx: jostleScore divided by
bcScore when both are present, null otherwise. -/
def tableRatio (c : BenchmarkComparison) : Option ℚ :=
  match c.bcScore, c.jostleScore with
  | some b, some j => some (j / b)
  | _, _ => none

/-- The winner column of BenchmarkTable.tsx: for throughput higher is
better, for the time modes lower is better; N/A when either side is
absent. -/
def tableWinner (jmhMode : JmhMode) (bcScore jostleScore : Option ℚ) : String :=
  match bcScore, jostleScore with
  | some b, some j =>
    if jmhMode = JmhMode.thrpt then (if b < j then "Jostle" else "BC")
    else (if j < b then "Jostle" else "BC")
  | _, _ => "N/A"

mutual
/-- findNode from BenchmarkView.tsx: the node itself for the empty path or
its own path, otherwise the first match found in a depth-first search of the
children. -/
def findNode (hierarchy : HierarchyNode) (path : String) : Option HierarchyNode :=
  if path = "" ∨ path = hierarchy.path then some hierarchy
  else findNodeList hierarchy.children path
termination_by sizeOf hierarchy
decreasing_by
  simp_wf
  exact HierarchyNode.sizeOf_children_lt hierarchy

/-- The child loop of findNode: each child is checked, then searched. -/
def findNodeList (children : List HierarchyNode) (path : String) : Option HierarchyNode :=
  match children with
  | [] => none
  | child :: rest =>
    if child.path = path then some child
    else
      match findNode child path with
      | some found => some found
      | none => findNodeList rest path
termination_by sizeOf children
decreasing_by
  all_goals simp_wf <;> omega
end

/-- The outcome rendered by BenchmarkView.tsx: either the empty-state prompt
(when the selected path resolves to no node) or the view of a node. -/
inductive ViewRender : Type where
  | selectPrompt
  | view (node : HierarchyNode)

/-- The node resolution of BenchmarkView.tsx: the selected path is looked up
in the hierarchy and a missing node renders the prompt. -/
def benchmarkView (hierarchy : HierarchyNode) (selectedPath : String) : ViewRender :=
  match findNode hierarchy selectedPath with
  | none => ViewRender.selectPrompt
  | some n => ViewRender.view n

/-- The outcome rendered by BenchmarkChart.tsx: the no-data state for an
empty comparison list, otherwise the chart over the comparisons. -/
inductive ChartRender : Type where
  | noData
  | chart (comparisons : List BenchmarkComparison)

/-- The empty guard of BenchmarkChart.tsx. -/
def benchmarkChartRender (comparisons : List BenchmarkComparison) : ChartRender :=
  if comparisons.length = 0 then ChartRender.noData else ChartRender.chart comparisons

/-- The outcome rendered by BenchmarkTable.tsx: the no-data state for an
empty comparison list, otherwise the table over the comparisons. -/
inductive TableRender : Type where
  | noData
  | table (comparisons : List BenchmarkComparison)

/-- The empty guard of BenchmarkTable.tsx. -/
def benchmarkTableRender (comparisons : List BenchmarkComparison) : TableRender :=
  if comparisons.length = 0 then TableRender.noData else TableRender.table comparisons

/-- The provider object installed by CryptoBenchmark.initProvider. -/
inductive ProviderImpl : Type where
  | bouncyCastle
  | jostleProvider
deriving DecidableEq, Repr

/-- Character-wise lower casing, the model of java.lang.String toLowerCase
for the ASCII provider names involved. -/
def toLowerStr (s : String) : String := String.mk (s.data.map Char.toLower)

/-- The case-insensitive string comparison of java.lang.String, on the
lower-cased forms. -/
def eqIgnoreCase (a b : String) : Bool := toLowerStr a == toLowerStr b

/-- The values of the providerName parameter declared by the Param
annotation of CryptoBenchmark.java. -/
def providerParamValues : List String := ["BC", "Jostle"]

/-- CryptoBenchmark.initProvider from CryptoBenchmark.java: BC installs the
Bouncy Castle provider, Jostle the Jostle provider, compared ignoring case;
any other name raises IllegalArgumentException, modelled as the error
branch. -/
def initProvider (providerName : String) : Except String ProviderImpl :=
  if eqIgnoreCase "BC" providerName then Except.ok ProviderImpl.bouncyCastle
  else if eqIgnoreCase "Jostle" providerName then Except.ok ProviderImpl.jostleProvider
  else Except.error ("Unknown provider: " ++ providerName)

/-- Modelled from the spec: the join key of the pair-matcher (section 4.2;
the matcher itself lives in visualizer/src/data/parser.ts, which is not
among the visible sources).  All classification fields plus the measurement
mode, explicitly excluding provider identity and the raw score fields. -/
structure JoinKey : Type where
  category : BenchmarkCategory
  algorithm : String
  operation : String
  variant : String
  mode : Option String
  cipherMode : Option String
  padding : Option String
  hashAlgorithm : Option String
  iterations : Option String
  jmhMode : JmhMode
deriving DecidableEq, Repr

/-- The join key of a classified record. -/
def keyOf (r : ParsedBenchmark) : JoinKey :=
  { category := r.category, algorithm := r.algorithm, operation := r.operation,
    variant := r.variant, mode := r.mode, cipherMode := r.cipherMode,
    padding := r.padding, hashAlgorithm := r.hashAlgorithm,
    iterations := r.iterations, jmhMode := r.jmhMode }

/-- The join key carried by a comparison entity. -/
def keyOfComparison (c : BenchmarkComparison) : JoinKey :=
  { category := c.category, algorithm := c.algorithm, operation := c.operation,
    variant := c.variant, mode := c.mode, cipherMode := c.cipherMode,
    padding := c.padding, hashAlgorithm := c.hashAlgorithm,
    iterations := c.iterations, jmhMode := c.jmhMode }

/-- Modelled from the spec: a comparison entity freshly created for a
record's key, with both sides still absent and the first-seen score unit
(section 4.2 of the spec; the matcher lives in the missing parser.ts). -/
def emptyComparison (r : ParsedBenchmark) : BenchmarkComparison :=
  { id := r.id, category := r.category, algorithm := r.algorithm,
    operation := r.operation, variant := r.variant, mode := r.mode,
    cipherMode := r.cipherMode, padding := r.padding,
    hashAlgorithm := r.hashAlgorithm, iterations := r.iterations,
    jmhMode := r.jmhMode, bcScore := none, bcError := none,
    jostleScore := none, jostleError := none, scoreUnit := r.scoreUnit,
    bcRaw := none, jostleRaw := none }

/-- Modelled from the spec: writing a record into its provider's slot of an
entity, last write wins; classification fields and the first-seen score unit
of the entity are kept (section 4.2 of the spec). -/
def setSlot (r : ParsedBenchmark) (c : BenchmarkComparison) : BenchmarkComparison :=
  match r.provider with
  | Provider.BC =>
    { c with bcScore := some r.score, bcError := some r.scoreError, bcRaw := some r }
  | Provider.Jostle =>
    { c with jostleScore := some r.score, jostleError := some r.scoreError,
             jostleRaw := some r }

/-- Modelled from the spec: one record folded into the accumulated entity
list.  The first entity with the record's key receives the record in its
provider's slot; when none exists a new entity is appended (section 4.2 of
the spec; the matcher lives in the missing parser.ts). -/
def upsertComparison : List BenchmarkComparison → ParsedBenchmark → List BenchmarkComparison
  | [], r => [setSlot r (emptyComparison r)]
  | c :: cs, r =>
    if keyOfComparison c = keyOf r then setSlot r c :: cs
    else c :: upsertComparison cs r

/-- Modelled from the spec: the pair-matcher, a left fold of the classified
records into comparison entities (section 4.2 of the spec; the matcher lives
in the missing parser.ts). -/
def pairMatch (records : List ParsedBenchmark) : List BenchmarkComparison :=
  records.foldl upsertComparison []

/-- The display name of a category, as used for the top path segment
(breadcrumbs and path segments in BenchmarkView.tsx use PQC, KDF and
Symmetric). -/
def categoryName : BenchmarkCategory → String
  | BenchmarkCategory.PQC => "PQC"
  | BenchmarkCategory.KDF => "KDF"
  | BenchmarkCategory.Symmetric => "Symmetric"

/-- Modelled from the spec: the ordered path segments of an entity — the
category, the algorithm, the operation (or the hash algorithm for
key-derivation), the variant, then any category sub-fields present
(section 4.3 of the spec; the hierarchy builder lives in the missing
parser.ts). -/
def entityPath (e : BenchmarkComparison) : List String :=
  [categoryName e.category, e.algorithm,
   (match e.category, e.hashAlgorithm with
    | BenchmarkCategory.KDF, some h => h
    | _, _ => e.operation),
   e.variant] ++
  (match e.category with
   | BenchmarkCategory.Symmetric =>
     e.cipherMode.toList ++ e.padding.toList
   | BenchmarkCategory.KDF => e.iterations.toList
   | BenchmarkCategory.PQC => [])

/-- Slash-joined path string of a segment list. -/
def pathString : List String → String
  | [] => ""
  | [s] => s
  | s :: rest => s ++ "/" ++ pathString rest

/-- The path of a child node: parent path, slash, segment name; a child of
the root carries just the segment name. -/
def joinSeg (parent seg : String) : String :=
  if parent = "" then seg else parent ++ "/" ++ seg

mutual
/-- Modelled from the spec: inserting one entity along its remaining path
segments.  The entity is appended to the comparisons of the node (ancestors
aggregate descendants) and, when segments remain, pushed into the child
named by the next segment, created on demand at the end of the sibling list
(section 4.3 of the spec; the builder lives in the missing parser.ts). -/
def insertEntity (e : BenchmarkComparison) : List String → HierarchyNode → HierarchyNode
  | [], HierarchyNode.mk nm p ch cs => HierarchyNode.mk nm p ch (cs ++ [e])
  | s :: rest, HierarchyNode.mk nm p ch cs =>
    HierarchyNode.mk nm p (insertChild e rest s p ch) (cs ++ [e])

/-- The child step of insertEntity: the first child named by the segment
receives the entity; when none exists a fresh node is appended and receives
it. -/
def insertChild (e : BenchmarkComparison) (rest : List String) (s : String)
    (parentPath : String) : List HierarchyNode → List HierarchyNode
  | [] => [insertEntity e rest (HierarchyNode.mk s (joinSeg parentPath s) [] [])]
  | c :: cs =>
    if c.name = s then insertEntity e rest c :: cs
    else c :: insertChild e rest s parentPath cs
end

/-- Modelled from the spec: the hierarchy builder, a left fold of the
entities into a tree rooted at a node with empty name and empty path
(section 4.3 of the spec; the builder lives in the missing parser.ts). -/
def buildHierarchy (entities : List BenchmarkComparison) : HierarchyNode :=
  entities.foldl (fun t e => insertEntity e (entityPath e) t)
    (HierarchyNode.mk "" "" [] [])

/-- Membership of a node in a tree: the root itself or a node of some
child's subtree. -/
inductive InTree (n : HierarchyNode) : HierarchyNode → Prop where
  | self : InTree n n
  | childStep (c t : HierarchyNode) :
      c ∈ t.children → InTree n c → InTree n t

/-- The ten decimal digit characters. -/
def digitsList : List Char := ['0', '1', '2', '3', '4', '5', '6', '7', '8', '9']

theorem digitChar_mem_digits : ∀ k, k < 10 → digitChar k ∈ digitsList := by decide

theorem natToDigitsAux_chars (fuel : Nat) :
    ∀ n c, c ∈ natToDigitsAux fuel n → c ∈ digitsList := by
  induction fuel with
  | zero => intro n c hc; simp [natToDigitsAux] at hc
  | succ fuel ih =>
    intro n c hc
    by_cases h : n < 10
    · simp [natToDigitsAux, h] at hc
      subst hc
      exact digitChar_mem_digits n h
    · simp [natToDigitsAux, h] at hc
      rcases hc with hc | hc
      · exact ih _ _ hc
      · subst hc
        exact digitChar_mem_digits _ (Nat.mod_lt n (by omega))

theorem natToDigits_chars (n : Nat) : ∀ c ∈ natToDigits n, c ∈ digitsList :=
  fun c hc => natToDigitsAux_chars (n + 1) n c hc

theorem padZeros_chars (s : List Char) (d : Nat) (hs : ∀ c ∈ s, c ∈ digitsList) :
    ∀ c ∈ padZeros s d, c ∈ digitsList := by
  intro c hc
  simp [padZeros] at hc
  rcases hc with hc | hc
  · rw [hc.2]; decide
  · exact hs c hc

theorem jsToFixed_chars (q : ℚ) (d : Nat) :
    ∀ c ∈ (jsToFixed q d).data, c = '-' ∨ c = '.' ∨ c ∈ digitsList := by
  intro c hc
  simp only [jsToFixed, String.data_append] at hc
  rcases List.mem_append.mp hc with hc1 | hc2
  · rcases List.mem_append.mp hc1 with hc3 | hc4
    · split_ifs at hc3
      · left
        simpa using hc3
      · simp at hc3
    · right; right
      exact natToDigits_chars _ c hc4
  · split_ifs at hc2
    · simp at hc2
    · rcases List.mem_append.mp hc2 with hc5 | hc6
      · right; left
        simpa using hc5
      · right; right
        exact padZeros_chars _ _ (natToDigits_chars _) c hc6

theorem dot_mem_jsToFixed (q : ℚ) (d : Nat) (hd : d ≠ 0) :
    '.' ∈ (jsToFixed q d).data := by
  simp only [jsToFixed, String.data_append, if_neg hd]
  apply List.mem_append.mpr
  right
  apply List.mem_append.mpr
  left
  simp

theorem jsToFixed_ne_NA (q : ℚ) (d : Nat) (hd : d ≠ 0) : jsToFixed q d ≠ "N/A" := by
  intro h
  have hdot := dot_mem_jsToFixed q d hd
  rw [h] at hdot
  revert hdot
  decide

theorem times_not_mem_jsToFixed (q : ℚ) (d : Nat) : '×' ∉ (jsToFixed q d).data := by
  intro h
  rcases jsToFixed_chars q d '×' h with h1 | h1 | h1 <;> revert h1 <;> decide

theorem times_mem_formatPowerOfTen (v : ℚ) (d : Nat) :
    '×' ∈ (formatPowerOfTen v d).data := by
  simp only [formatPowerOfTen, String.data_append]
  apply List.mem_append.mpr
  left
  apply List.mem_append.mpr
  right
  decide

theorem formatPowerOfTen_ne_NA (v : ℚ) (d : Nat) : formatPowerOfTen v d ≠ "N/A" := by
  intro h
  have ht := times_mem_formatPowerOfTen v d
  rw [h] at ht
  revert ht
  decide

theorem times_not_mem_superscript (n : Int) : '×' ∉ (toSuperscript n).data := by
  intro h
  simp only [toSuperscript] at h
  rcases List.mem_map.mp h with ⟨c, hc, hmap⟩
  have hclass : c = '-' ∨ c ∈ digitsList := by
    simp only [intToChars] at hc
    split_ifs at hc
    · rcases List.mem_cons.mp hc with h1 | h1
      · left; exact h1
      · right; exact natToDigits_chars _ c h1
    · right; exact natToDigits_chars _ c hc
  rcases hclass with h1 | h1
  · rw [h1] at hmap; revert hmap; decide
  · have hne : ∀ ch ∈ digitsList, superscriptChar ch ≠ '×' := by decide
    exact hne c h1 hmap

/-- C10: formatScoreValue is total on every number-or-null input; it returns
"N/A" exactly when the input is null, renders power-of-ten notation exactly
when the value is at least 1000 or strictly between 0 and 0.01, and
otherwise renders the value with four decimal places; the input 0 is
rendered "0.0000" through the fixed-decimal branch and is never passed to
the power-of-ten formatter. -/
theorem formatScoreValue_spec (v : ℚ) :
    formatScoreValue none 4 = "N/A" ∧
    formatScoreValue (some v) 4 ≠ "N/A" ∧
    formatScoreValue (some v) 4 =
      (if 1000 ≤ v ∨ (0 < v ∧ v < 1 / 100) then formatPowerOfTen v 4
       else jsToFixed v 4) ∧
    ('×' ∈ (formatScoreValue (some v) 4).data ↔
      (1000 ≤ v ∨ (0 < v ∧ v < 1 / 100))) ∧
    ¬((1000 : ℚ) ≤ 0 ∨ ((0 : ℚ) < 0 ∧ (0 : ℚ) < 1 / 100)) ∧
    formatScoreValue (some 0) 4 = jsToFixed 0 4 ∧
    jsToFixed 0 4 = "0.0000" := by
  have hzero : ¬((1000 : ℚ) ≤ 0 ∨ ((0 : ℚ) < 0 ∧ (0 : ℚ) < 1 / 100)) := by
    push_neg
    constructor
    · norm_num
    · intro h; exact absurd h (lt_irrefl 0)
  refine ⟨rfl, ?_, ?_, ?_, hzero, ?_, ?_⟩
  · by_cases hb : 1000 ≤ v ∨ (0 < v ∧ v < 1 / 100)
    · simp only [formatScoreValue, if_pos hb]
      exact formatPowerOfTen_ne_NA v 4
    · simp only [formatScoreValue, if_neg hb]
      exact jsToFixed_ne_NA v 4 (by omega)
  · simp only [formatScoreValue]
  · by_cases hb : 1000 ≤ v ∨ (0 < v ∧ v < 1 / 100)
    · simp only [formatScoreValue, if_pos hb]
      exact iff_of_true (times_mem_formatPowerOfTen v 4) hb
    · simp only [formatScoreValue, if_neg hb]
      exact iff_of_false (times_not_mem_jsToFixed v 4) hb
  · simp only [formatScoreValue, if_neg hzero]
  · decide

theorem formatRatio_some_ne_NA (r : ℚ) (d : Nat) (hd : d ≠ 0) :
    formatRatio (some r) d ≠ "N/A" := by
  simp only [formatRatio]
  intro h
  have hdot := dot_mem_jsToFixed r d hd
  have hmem : '.' ∈ (jsToFixed r d ++ "x").data := by
    rw [String.data_append]
    exact List.mem_append.mpr (Or.inl hdot)
  rw [h] at hmem
  revert hmem
  decide

/-- C1 (amended): the ratio shown by the table is derived on demand from the
entity's two score fields; the rendering is "N/A" exactly when either side's
score is absent.  A zero divisor with both sides present is not
special-cased: the guard checks only for null. -/
theorem tableRatio_na_iff (e : BenchmarkComparison) :
    formatRatio (tableRatio e) 2 = "N/A" ↔
      (e.bcScore = none ∨ e.jostleScore = none) := by
  rcases hb : e.bcScore with _ | b <;> rcases hj : e.jostleScore with _ | j <;>
    simp only [tableRatio, hb, hj]
  · simp [formatRatio]
  · simp [formatRatio]
  · simp [formatRatio]
  · constructor
    · intro h
      exact absurd h (formatRatio_some_ne_NA (j / b) 2 (by omega))
    · intro h
      simp at h

/-- Entity with a zero Bouncy Castle score and a present Jostle score, the
divisor-zero case of the displayed ratio. -/
def zeroDivisorEntity : BenchmarkComparison :=
  { id := "bench-c1", category := BenchmarkCategory.Symmetric,
    algorithm := "Aes", operation := "encrypt", variant := "CBC",
    mode := none, cipherMode := some "CBC", padding := some "PKCS5",
    hashAlgorithm := none, iterations := none, jmhMode := JmhMode.thrpt,
    bcScore := some 0, bcError := some 1, jostleScore := some 5,
    jostleError := some 1, scoreUnit := "ops/s", bcRaw := none,
    jostleRaw := none }

/-- C1 counterexample: with both sides present and the divisor bcScore equal
to 0, the displayed ratio is a numeric rendering, not "N/A" (JavaScript
produces an infinite value here; division by zero on the rational model
yields 0 — under either semantics the null guard alone decides, so the
result is never "N/A"). -/
theorem tableRatio_zero_divisor_counterexample :
    zeroDivisorEntity.bcScore = some 0 ∧
    zeroDivisorEntity.jostleScore = some 5 ∧
    tableRatio zeroDivisorEntity ≠ none ∧
    formatRatio (tableRatio zeroDivisorEntity) 2 ≠ "N/A" := by
  have heval : tableRatio zeroDivisorEntity = some ((5 : ℚ) / 0) := rfl
  refine ⟨rfl, rfl, ?_, ?_⟩
  · rw [heval]; simp
  · rw [heval]
    exact formatRatio_some_ne_NA ((5 : ℚ) / 0) 2 (by omega)

/-- C9: for a comparison with both provider scores present, the table
displays the winner "Jostle" exactly when the Jostle score is strictly
greater in throughput mode, or strictly smaller in every other mode; every
remaining both-present case, ties included, displays "BC". -/
theorem tableWinner_spec (mode : JmhMode) (b j : ℚ) :
    tableWinner mode (some b) (some j) =
      (if (mode = JmhMode.thrpt ∧ b < j) ∨ (mode ≠ JmhMode.thrpt ∧ j < b)
       then "Jostle" else "BC") ∧
    tableWinner mode (some b) (some b) = "BC" := by
  constructor
  · by_cases hm : mode = JmhMode.thrpt
    · by_cases hlt : b < j <;> simp [tableWinner, hm, hlt]
    · by_cases hlt : j < b <;> simp [tableWinner, hm, hlt]
  · by_cases hm : mode = JmhMode.thrpt <;> simp [tableWinner, hm, lt_irrefl]

/-- C7: zero input records produce a root node with empty children and an
empty comparisons list, and both the chart and the table render their
no-data state on an empty comparison list. -/
theorem empty_input_spec :
    buildHierarchy [] = HierarchyNode.mk "" "" [] [] ∧
    (buildHierarchy []).children = [] ∧
    (buildHierarchy []).comparisons = [] ∧
    benchmarkChartRender [] = ChartRender.noData ∧
    benchmarkTableRender [] = TableRender.noData :=
  ⟨rfl, rfl, rfl, rfl, rfl⟩

/-- A small concrete hierarchy: a root with one PQC child. -/
def sampleTree : HierarchyNode :=
  HierarchyNode.mk "" "" [HierarchyNode.mk "PQC" "PQC" [] []] []

/-- C5 counterexample: a selected path missing from the tree renders the
empty-state prompt of BenchmarkView.tsx, not the root's view of all
benchmarks as the claim states. -/
theorem benchmarkView_missing_counterexample :
    findNode sampleTree "gone" = none ∧
    benchmarkView sampleTree "gone" = ViewRender.selectPrompt ∧
    benchmarkView sampleTree "gone" ≠ ViewRender.view sampleTree := by
  have h : findNode sampleTree "gone" = none := by
    simp [findNode, findNodeList, sampleTree]
  refine ⟨h, ?_, ?_⟩
  · simp [benchmarkView, h]
  · simp only [benchmarkView, h]
    intro hc
    exact ViewRender.noConfusion hc

/-- C5 (amended): when the selected path resolves to no node of the
hierarchy, BenchmarkView treats the selection as no longer present and
renders the empty-state selection prompt — not a crash and not a stale
node; the root's full view is rendered for the empty selection path, which
always resolves to the root. -/
theorem benchmarkView_missing_path (hierarchy : HierarchyNode) (selectedPath : String)
    (h : findNode hierarchy selectedPath = none) :
    benchmarkView hierarchy selectedPath = ViewRender.selectPrompt ∧
    benchmarkView hierarchy "" = ViewRender.view hierarchy := by
  constructor
  · simp [benchmarkView, h]
  · have hroot : findNode hierarchy "" = some hierarchy := by
      rw [findNode]
      simp
    simp [benchmarkView, hroot]

/-- C5 witness: the amended behaviour at the concrete tree and missing
path. -/
theorem benchmarkView_missing_path_witness :
    findNode sampleTree "gone" = none ∧
    (benchmarkView sampleTree "gone" = ViewRender.selectPrompt ∧
     benchmarkView sampleTree "" = ViewRender.view sampleTree) := by
  have h : findNode sampleTree "gone" = none := by
    simp [findNode, findNodeList, sampleTree]
  exact ⟨h, benchmarkView_missing_path sampleTree "gone" h⟩

/-- Symmetric entity with the sentinel "default" variant and no cipher mode
or padding. -/
def symDefaultEntity : BenchmarkComparison :=
  { id := "bench-c6", category := BenchmarkCategory.Symmetric,
    algorithm := "Aes", operation := "encrypt", variant := "default",
    mode := none, cipherMode := none, padding := none,
    hashAlgorithm := none, iterations := none, jmhMode := JmhMode.thrpt,
    bcScore := some 1, bcError := none, jostleScore := some 1,
    jostleError := none, scoreUnit := "ops/s", bcRaw := none,
    jostleRaw := none }

/-- C6 counterexample: for a Symmetric entity the variant is pushed into the
label unconditionally, so the literal "default" variant is not collapsed —
the label is the string "default" rather than the empty label the collapse
rule would give. -/
theorem formatLabel_symmetric_default_counterexample :
    symDefaultEntity.variant = "default" ∧
    formatLabel symDefaultEntity (LabelContext.mk false false) = "default" ∧
    formatLabel symDefaultEntity (LabelContext.mk false false) ≠ "" := by
  refine ⟨rfl, ?_, ?_⟩ <;> decide

/-- C6 (amended): assembling the display label is a pure total mapping
(a total function of the entity and context by construction), and the
collapse of the literal "default" variant applies to the PQC branch: for a
PQC-category entity with variant "default" the variant segment is omitted
and the label consists of the algorithm and operation segments alone (shown
only in a multi-algorithm or multi-operation context); fields of the other
categories do not contribute. -/
theorem formatLabel_pqc_default_collapse (e : BenchmarkComparison)
    (ctx : LabelContext) (h1 : e.category = BenchmarkCategory.PQC)
    (h2 : e.variant = "default") :
    formatLabel e ctx =
      joinParts
        (((if ctx.hasMultipleAlgorithms then [formatAlgorithmName e.algorithm] else []) ++
          (if ctx.hasMultipleOperations then [formatOperationName e.operation] else [])).filter
          (fun s => s ≠ "")) := by
  simp [formatLabel, labelParts, h1, h2]

/-- A PQC entity with the sentinel "default" variant. -/
def pqcDefaultEntity : BenchmarkComparison :=
  { id := "bench-c6w", category := BenchmarkCategory.PQC,
    algorithm := "MlKem", operation := "keyGen", variant := "default",
    mode := none, cipherMode := none, padding := none,
    hashAlgorithm := none, iterations := none, jmhMode := JmhMode.thrpt,
    bcScore := some 1, bcError := none, jostleScore := some 1,
    jostleError := none, scoreUnit := "ops/s", bcRaw := none,
    jostleRaw := none }

/-- C6 witness: a concrete PQC entity with the "default" variant, in the
single-algorithm single-operation context, yields the empty label. -/
theorem formatLabel_pqc_default_collapse_witness :
    pqcDefaultEntity.category = BenchmarkCategory.PQC ∧
    pqcDefaultEntity.variant = "default" ∧
    formatLabel pqcDefaultEntity (LabelContext.mk false false) =
      joinParts
        (((if (LabelContext.mk false false).hasMultipleAlgorithms
           then [formatAlgorithmName pqcDefaultEntity.algorithm] else []) ++
          (if (LabelContext.mk false false).hasMultipleOperations
           then [formatOperationName pqcDefaultEntity.operation] else [])).filter
          (fun s => s ≠ "")) :=
  ⟨rfl, rfl, formatLabel_pqc_default_collapse pqcDefaultEntity
    (LabelContext.mk false false) rfl rfl⟩

/-- C8: the provider-name parameter of the harness takes exactly the two
values BC and Jostle; initProvider installs the Bouncy Castle provider
exactly for names lower-casing to "bc", the Jostle provider exactly for
names lower-casing to "jostle" (the case-insensitive comparisons of the
source), and raises IllegalArgumentException (the error branch) exactly for
every other name. -/
theorem initProvider_spec (name : String) :
    providerParamValues = ["BC", "Jostle"] ∧
    (initProvider name = Except.ok ProviderImpl.bouncyCastle ↔
      toLowerStr name = "bc") ∧
    (initProvider name = Except.ok ProviderImpl.jostleProvider ↔
      toLowerStr name = "jostle") ∧
    ((∃ msg, initProvider name = Except.error msg) ↔
      (toLowerStr name ≠ "bc" ∧ toLowerStr name ≠ "jostle")) := by
  have hbc : toLowerStr "BC" = "bc" := by decide
  have hj : toLowerStr "Jostle" = "jostle" := by decide
  by_cases h1 : toLowerStr name = "bc"
  · refine ⟨rfl, ?_, ?_, ?_⟩ <;>
      simp [initProvider, eqIgnoreCase, hbc, hj, h1]
  · by_cases h2 : toLowerStr name = "jostle"
    · refine ⟨rfl, ?_, ?_, ?_⟩ <;>
        simp [initProvider, eqIgnoreCase, hbc, hj, h1, h2, Ne.symm h1]
    · refine ⟨rfl, ?_, ?_, ?_⟩ <;>
        simp [initProvider, eqIgnoreCase, hbc, hj, h1, h2, Ne.symm h1, Ne.symm h2]

theorem findNodeList_sound_of (p : String) (l : List HierarchyNode)
    (ih : ∀ c ∈ l, ∀ n, findNode c p = some n → InTree n c ∧ n.path = p) :
    ∀ n, findNodeList l p = some n → (∃ c ∈ l, InTree n c) ∧ n.path = p := by
  induction l with
  | nil =>
    intro n h
    rw [findNodeList] at h
    cases h
  | cons child rest ihl =>
    intro n h
    rw [findNodeList] at h
    by_cases hc : child.path = p
    · rw [if_pos hc] at h
      injection h with h
      subst h
      exact ⟨⟨child, List.mem_cons_self child rest, InTree.self⟩, hc⟩
    · rw [if_neg hc] at h
      cases hf : findNode child p with
      | some found =>
        rw [hf] at h
        injection h with h
        subst h
        rcases ih child (List.mem_cons_self child rest) found hf with ⟨hin, hpath⟩
        exact ⟨⟨child, List.mem_cons_self child rest, hin⟩, hpath⟩
      | none =>
        rw [hf] at h
        rcases ihl (fun c hcmem => ih c (List.mem_cons_of_mem child hcmem)) n h with
          ⟨⟨c, hcmem, hin⟩, hpath⟩
        exact ⟨⟨c, List.mem_cons_of_mem child hcmem, hin⟩, hpath⟩

theorem findNode_sound (p : String) (hp : p ≠ "") :
    ∀ t, ∀ n, findNode t p = some n → InTree n t ∧ n.path = p := by
  apply HierarchyNode.strongInduction
    (fun t => ∀ n, findNode t p = some n → InTree n t ∧ n.path = p)
  intro t ih n hfind
  rw [findNode] at hfind
  by_cases hcond : p = "" ∨ p = t.path
  · rw [if_pos hcond] at hfind
    injection hfind with hfind
    subst hfind
    rcases hcond with h | h
    · exact absurd h hp
    · exact ⟨InTree.self, h.symm⟩
  · rw [if_neg hcond] at hfind
    rcases findNodeList_sound_of p t.children ih n hfind with ⟨⟨c, hcmem, hin⟩, hpath⟩
    exact ⟨InTree.childStep c t hcmem hin, hpath⟩

theorem findNodeList_complete_of (p : String) (l : List HierarchyNode)
    (ih : ∀ c ∈ l, ∀ n, InTree n c → n.path = p → ∃ m, findNode c p = some m) :
    ∀ c0 ∈ l, ∀ n, InTree n c0 → n.path = p → ∃ m, findNodeList l p = some m := by
  induction l with
  | nil =>
    intro c0 hc0
    cases hc0
  | cons child rest ihl =>
    intro c0 hc0 n hin hpath
    rw [findNodeList]
    by_cases hcp : child.path = p
    · exact ⟨child, by rw [if_pos hcp]⟩
    · rw [if_neg hcp]
      cases hf : findNode child p with
      | some found => exact ⟨found, rfl⟩
      | none =>
        rcases List.mem_cons.mp hc0 with h | h
        · subst h
          rcases ih c0 (List.mem_cons_self c0 rest) n hin hpath with ⟨m, hm⟩
          rw [hm] at hf
          cases hf
        · exact ihl (fun c hcmem => ih c (List.mem_cons_of_mem child hcmem)) c0 h n hin hpath

theorem findNode_complete (p : String) :
    ∀ t, ∀ n, InTree n t → n.path = p → ∃ m, findNode t p = some m := by
  apply HierarchyNode.strongInduction
    (fun t => ∀ n, InTree n t → n.path = p → ∃ m, findNode t p = some m)
  intro t ih n hin hpath
  rw [findNode]
  by_cases hcond : p = "" ∨ p = t.path
  · rw [if_pos hcond]
    exact ⟨t, rfl⟩
  · rw [if_neg hcond]
    cases hin with
    | self =>
      exact absurd (Or.inr hpath.symm) hcond
    | childStep c _ hcmem hinc =>
      exact findNodeList_complete_of p t.children ih c hcmem n hinc hpath

/-- C4: for every hierarchy tree whose root carries the empty path and every
path string p, findNode returns only nodes of the tree whose path field
equals p, returns the not-found indication (none) exactly when no node of
the tree has path p, and returns the root for the empty path. -/
theorem findNode_spec (t : HierarchyNode) (p : String) (hroot : t.path = "") :
    (∀ n, findNode t p = some n → InTree n t ∧ n.path = p) ∧
    (findNode t p = none ↔ ∀ n, InTree n t → n.path ≠ p) ∧
    findNode t "" = some t := by
  have hempty : findNode t "" = some t := by
    rw [findNode]
    simp
  by_cases hp : p = ""
  · subst hp
    refine ⟨?_, ?_, hempty⟩
    · intro n h
      rw [hempty] at h
      injection h with h
      subst h
      exact ⟨InTree.self, hroot⟩
    · rw [hempty]
      constructor
      · intro h
        cases h
      · intro h
        exact absurd hroot (h t InTree.self)
  · refine ⟨fun n h => findNode_sound p hp t n h, ?_, hempty⟩
    constructor
    · intro hnone n hin hpath
      rcases findNode_complete p t n hin hpath with ⟨m, hm⟩
      rw [hnone] at hm
      cases hm
    · intro hall
      cases hf : findNode t p with
      | none => rfl
      | some m =>
        rcases findNode_sound p hp t m hf with ⟨hin, hpath⟩
        exact absurd hpath (hall m hin)

/-- C4 witness: the specification applied at a concrete tree and path. -/
theorem findNode_spec_witness :
    sampleTree.path = "" ∧
    ((∀ n, findNode sampleTree "PQC" = some n → InTree n sampleTree ∧ n.path = "PQC") ∧
     (findNode sampleTree "PQC" = none ↔ ∀ n, InTree n sampleTree → n.path ≠ "PQC") ∧
     findNode sampleTree "" = some sampleTree) :=
  ⟨rfl, findNode_spec sampleTree "PQC" rfl⟩

theorem keyOfComparison_emptyComparison (r : ParsedBenchmark) :
    keyOfComparison (emptyComparison r) = keyOf r := rfl

theorem keyOfComparison_setSlot (r : ParsedBenchmark) (c : BenchmarkComparison) :
    keyOfComparison (setSlot r c) = keyOfComparison c := by
  cases hr : r.provider <;> simp [setSlot, hr, keyOfComparison]

theorem scoreUnit_setSlot (r : ParsedBenchmark) (c : BenchmarkComparison) :
    (setSlot r c).scoreUnit = c.scoreUnit := by
  cases hr : r.provider <;> simp [setSlot, hr]

/-- The per-entity slot invariant of the pair-matcher: score and raw slots
of a side are present together, at least one side is present, and each raw
slot carries a record of that provider whose join key is the entity's. -/
def SlotInv (c : BenchmarkComparison) : Prop :=
  (c.bcRaw = none ↔ c.bcScore = none) ∧
  (c.jostleRaw = none ↔ c.jostleScore = none) ∧
  ¬(c.bcRaw = none ∧ c.jostleRaw = none) ∧
  (∀ rb, c.bcRaw = some rb → keyOf rb = keyOfComparison c ∧ rb.provider = Provider.BC) ∧
  (∀ rj, c.jostleRaw = some rj →
    keyOf rj = keyOfComparison c ∧ rj.provider = Provider.Jostle)

theorem setSlot_bc_fields (r : ParsedBenchmark) (c : BenchmarkComparison)
    (h : r.provider = Provider.BC) :
    (setSlot r c).bcRaw = some r ∧ (setSlot r c).bcScore = some r.score ∧
    (setSlot r c).jostleRaw = c.jostleRaw ∧
    (setSlot r c).jostleScore = c.jostleScore := by
  simp [setSlot, h]

theorem setSlot_jostle_fields (r : ParsedBenchmark) (c : BenchmarkComparison)
    (h : r.provider = Provider.Jostle) :
    (setSlot r c).jostleRaw = some r ∧ (setSlot r c).jostleScore = some r.score ∧
    (setSlot r c).bcRaw = c.bcRaw ∧ (setSlot r c).bcScore = c.bcScore := by
  simp [setSlot, h]

theorem slotInv_setSlot (r : ParsedBenchmark) (c : BenchmarkComparison)
    (hk : keyOfComparison c = keyOf r)
    (h : (c.bcRaw = none ↔ c.bcScore = none) ∧
         (c.jostleRaw = none ↔ c.jostleScore = none) ∧
         (∀ rb, c.bcRaw = some rb → keyOf rb = keyOfComparison c ∧ rb.provider = Provider.BC) ∧
         (∀ rj, c.jostleRaw = some rj →
           keyOf rj = keyOfComparison c ∧ rj.provider = Provider.Jostle)) :
    SlotInv (setSlot r c) := by
  rcases h with ⟨hb, hj, hrb, hrj⟩
  cases hr : r.provider with
  | BC =>
    obtain ⟨f1, f2, f3, f4⟩ := setSlot_bc_fields r c hr
    refine ⟨?_, ?_, ?_, ?_, ?_⟩
    · rw [f1, f2]; simp
    · rw [f3, f4]; exact hj
    · rw [f1]; simp
    · intro rb hx
      rw [f1] at hx
      injection hx with hx
      subst hx
      refine ⟨?_, hr⟩
      rw [keyOfComparison_setSlot]
      exact hk.symm
    · intro rj hx
      rw [f3] at hx
      have hr2 := hrj rj hx
      refine ⟨?_, hr2.2⟩
      rw [keyOfComparison_setSlot]
      exact hr2.1
  | Jostle =>
    obtain ⟨f1, f2, f3, f4⟩ := setSlot_jostle_fields r c hr
    refine ⟨?_, ?_, ?_, ?_, ?_⟩
    · rw [f3, f4]; exact hb
    · rw [f1, f2]; simp
    · rw [f1]; simp
    · intro rb hx
      rw [f3] at hx
      have hr2 := hrb rb hx
      refine ⟨?_, hr2.2⟩
      rw [keyOfComparison_setSlot]
      exact hr2.1
    · intro rj hx
      rw [f1] at hx
      injection hx with hx
      subst hx
      refine ⟨?_, hr⟩
      rw [keyOfComparison_setSlot]
      exact hk.symm

theorem slotInv_new (r : ParsedBenchmark) : SlotInv (setSlot r (emptyComparison r)) := by
  apply slotInv_setSlot r (emptyComparison r) (keyOfComparison_emptyComparison r)
  simp [emptyComparison]

theorem slotInv_upsert (acc : List BenchmarkComparison) (r : ParsedBenchmark)
    (h : ∀ c ∈ acc, SlotInv c) : ∀ c ∈ upsertComparison acc r, SlotInv c := by
  induction acc with
  | nil =>
    intro c hc
    simp only [upsertComparison] at hc
    rcases List.mem_singleton.mp hc with rfl
    exact slotInv_new r
  | cons c0 cs ih =>
    intro c hc
    simp only [upsertComparison] at hc
    by_cases hk : keyOfComparison c0 = keyOf r
    · rw [if_pos hk] at hc
      rcases List.mem_cons.mp hc with rfl | hmem
      · have h0 := h c0 (List.mem_cons_self c0 cs)
        rcases h0 with ⟨hb, hj, _, hrb, hrj⟩
        exact slotInv_setSlot r c0 hk ⟨hb, hj, hrb, hrj⟩
      · exact h c (List.mem_cons_of_mem c0 hmem)
    · rw [if_neg hk] at hc
      rcases List.mem_cons.mp hc with rfl | hmem
      · exact h c (List.mem_cons_self c cs)
      · exact ih (fun d hd => h d (List.mem_cons_of_mem c0 hd)) c hmem

theorem slotInv_foldl (records : List ParsedBenchmark) :
    ∀ acc, (∀ c ∈ acc, SlotInv c) →
      ∀ c ∈ records.foldl upsertComparison acc, SlotInv c := by
  induction records with
  | nil => intro acc h c hc; exact h c hc
  | cons r rs ih =>
    intro acc h c hc
    exact ih (upsertComparison acc r) (slotInv_upsert acc r h) c hc

theorem find?_append_some {α : Type} (l1 l2 : List α) (p : α → Bool) (a : α)
    (h : l1.find? p = some a) : (l1 ++ l2).find? p = some a := by
  induction l1 with
  | nil => cases h
  | cons x xs ih =>
    rw [List.find?] at h
    by_cases hp : p x
    · rw [hp] at h
      simp only [List.cons_append, List.find?, hp]
      exact h
    · simp only [Bool.not_eq_true] at hp
      rw [hp] at h
      simp only [List.cons_append, List.find?, hp]
      exact ih h

theorem find?_append_none {α : Type} (l1 l2 : List α) (p : α → Bool)
    (h : l1.find? p = none) : (l1 ++ l2).find? p = l2.find? p := by
  induction l1 with
  | nil => simp
  | cons x xs ih =>
    rw [List.find?] at h
    by_cases hp : p x
    · rw [hp] at h
      cases h
    · simp only [Bool.not_eq_true] at hp
      rw [hp] at h
      simp only [List.cons_append, List.find?, hp]
      exact ih h

/-- The coverage invariant binding processed records to accumulated
entities: every entity's score unit comes from the first processed record
with its key, and every processed record's key is represented. -/
def UnitInv (done : List ParsedBenchmark) (acc : List BenchmarkComparison) : Prop :=
  (∀ c ∈ acc, ∃ r0, done.find? (fun r => keyOf r == keyOfComparison c) = some r0 ∧
    c.scoreUnit = r0.scoreUnit) ∧
  (∀ r ∈ done, ∃ c ∈ acc, keyOfComparison c = keyOf r)

theorem mem_upsert (acc : List BenchmarkComparison) (r : ParsedBenchmark) :
    ∀ c' ∈ upsertComparison acc r,
      (∃ c ∈ acc, c' = setSlot r c ∧ keyOfComparison c = keyOf r) ∨ c' ∈ acc ∨
      (c' = setSlot r (emptyComparison r) ∧
        ∀ c ∈ acc, keyOfComparison c ≠ keyOf r) := by
  induction acc with
  | nil =>
    intro c' hc'
    simp only [upsertComparison] at hc'
    rcases List.mem_singleton.mp hc' with rfl
    exact Or.inr (Or.inr ⟨rfl, by intro c hc; cases hc⟩)
  | cons c0 cs ih =>
    intro c' hc'
    simp only [upsertComparison] at hc'
    by_cases hk : keyOfComparison c0 = keyOf r
    · rw [if_pos hk] at hc'
      rcases List.mem_cons.mp hc' with rfl | hmem
      · exact Or.inl ⟨c0, List.mem_cons_self c0 cs, rfl, hk⟩
      · exact Or.inr (Or.inl (List.mem_cons_of_mem c0 hmem))
    · rw [if_neg hk] at hc'
      rcases List.mem_cons.mp hc' with rfl | hmem
      · exact Or.inr (Or.inl (List.mem_cons_self c' cs))
      · rcases ih c' hmem with ⟨c, hcm, he, hkey⟩ | hold | ⟨he, hnone⟩
        · exact Or.inl ⟨c, List.mem_cons_of_mem c0 hcm, he, hkey⟩
        · exact Or.inr (Or.inl (List.mem_cons_of_mem c0 hold))
        · refine Or.inr (Or.inr ⟨he, ?_⟩)
          intro c hc
          rcases List.mem_cons.mp hc with rfl | hcm
          · exact hk
          · exact hnone c hcm

theorem upsert_key_cover (acc : List BenchmarkComparison) (r : ParsedBenchmark) :
    ∀ c ∈ acc, ∃ c' ∈ upsertComparison acc r, keyOfComparison c' = keyOfComparison c := by
  induction acc with
  | nil => intro c hc; cases hc
  | cons c0 cs ih =>
    intro c hc
    simp only [upsertComparison]
    by_cases hk : keyOfComparison c0 = keyOf r
    · rw [if_pos hk]
      rcases List.mem_cons.mp hc with rfl | hmem
      · exact ⟨setSlot r c, List.mem_cons_self _ _, keyOfComparison_setSlot r c⟩
      · exact ⟨c, List.mem_cons_of_mem _ hmem, rfl⟩
    · rw [if_neg hk]
      rcases List.mem_cons.mp hc with rfl | hmem
      · exact ⟨c, List.mem_cons_self _ _, rfl⟩
      · rcases ih c hmem with ⟨c', hc', hkey⟩
        exact ⟨c', List.mem_cons_of_mem _ hc', hkey⟩

theorem upsert_mem_new (acc : List BenchmarkComparison) (r : ParsedBenchmark)
    (hno : ∀ c ∈ acc, keyOfComparison c ≠ keyOf r) :
    setSlot r (emptyComparison r) ∈ upsertComparison acc r := by
  induction acc with
  | nil => simp [upsertComparison]
  | cons c0 cs ih =>
    simp only [upsertComparison]
    rw [if_neg (hno c0 (List.mem_cons_self c0 cs))]
    exact List.mem_cons_of_mem c0 (ih (fun c hc => hno c (List.mem_cons_of_mem c0 hc)))

theorem unitInv_step (done : List ParsedBenchmark) (acc : List BenchmarkComparison)
    (r : ParsedBenchmark) (h : UnitInv done acc) :
    UnitInv (done ++ [r]) (upsertComparison acc r) := by
  rcases h with ⟨hunit, hcover⟩
  constructor
  · intro c' hc'
    rcases mem_upsert acc r c' hc' with ⟨c, hcm, rfl, hkey⟩ | hold | ⟨rfl, hnone⟩
    · rcases hunit c hcm with ⟨r0, hfind, huseq⟩
      rw [keyOfComparison_setSlot]
      exact ⟨r0, find?_append_some _ _ _ _ hfind, by rw [scoreUnit_setSlot]; exact huseq⟩
    · rcases hunit c' hold with ⟨r0, hfind, huseq⟩
      exact ⟨r0, find?_append_some _ _ _ _ hfind, huseq⟩
    · have hkey : keyOfComparison (setSlot r (emptyComparison r)) = keyOf r := by
        rw [keyOfComparison_setSlot, keyOfComparison_emptyComparison]
      have hnonefind : done.find?
          (fun x => keyOf x == keyOfComparison (setSlot r (emptyComparison r))) = none := by
        cases hf : done.find?
            (fun x => keyOf x == keyOfComparison (setSlot r (emptyComparison r))) with
        | none => rfl
        | some r1 =>
          have hmem := List.mem_of_find?_eq_some hf
          have hpred := List.find?_some hf
          rw [hkey] at hpred
          have hkeq : keyOf r1 = keyOf r := by simpa using hpred
          rcases hcover r1 hmem with ⟨c, hcm, hck⟩
          exact absurd (hck.trans hkeq) (hnone c hcm)
      refine ⟨r, ?_, ?_⟩
      · rw [find?_append_none _ _ _ hnonefind]
        simp [List.find?, hkey]
      · rw [scoreUnit_setSlot]
        simp [emptyComparison]
  · intro r' hr'
    rcases List.mem_append.mp hr' with hold | hnew
    · rcases hcover r' hold with ⟨c, hcm, hck⟩
      rcases upsert_key_cover acc r c hcm with ⟨c', hc', hkey⟩
      exact ⟨c', hc', hkey.trans hck⟩
    · rcases List.mem_singleton.mp hnew with rfl
      by_cases hex : ∃ c ∈ acc, keyOfComparison c = keyOf r'
      · rcases hex with ⟨c, hcm, hck⟩
        rcases upsert_key_cover acc r' c hcm with ⟨c', hc', hkey⟩
        exact ⟨c', hc', hkey.trans hck⟩
      · push_neg at hex
        refine ⟨setSlot r' (emptyComparison r'), upsert_mem_new acc r' hex, ?_⟩
        rw [keyOfComparison_setSlot, keyOfComparison_emptyComparison]

theorem unitInv_foldl (records : List ParsedBenchmark) :
    ∀ (done : List ParsedBenchmark) (acc : List BenchmarkComparison),
      UnitInv done acc → UnitInv (done ++ records) (records.foldl upsertComparison acc) := by
  induction records with
  | nil => intro done acc h; simpa using h
  | cons r rs ih =>
    intro done acc h
    have step := unitInv_step done acc r h
    have := ih (done ++ [r]) (upsertComparison acc r) step
    simpa [List.append_assoc] using this

/-- C3: every comparison entity produced by the pair-matcher has at least
one provider side present; each side's stored record carries exactly the
entity's join key (all classification fields plus mode), so when both sides
are present the two records share identical classification fields; and the
entity's score unit is the first-seen matching record's unit — on a unit
mismatch the entity is still produced, carrying that first-seen unit. -/
theorem pairMatch_spec (records : List ParsedBenchmark) (c : BenchmarkComparison)
    (hc : c ∈ pairMatch records) :
    ¬(c.bcScore = none ∧ c.jostleScore = none) ∧
    (∀ rb, c.bcRaw = some rb → keyOf rb = keyOfComparison c) ∧
    (∀ rj, c.jostleRaw = some rj → keyOf rj = keyOfComparison c) ∧
    (∃ r0, records.find? (fun r => keyOf r == keyOfComparison c) = some r0 ∧
      c.scoreUnit = r0.scoreUnit) := by
  have hc' : c ∈ records.foldl upsertComparison [] := hc
  have hslot := slotInv_foldl records [] (fun d hd => absurd hd (List.not_mem_nil d)) c hc'
  have hunit : UnitInv records (pairMatch records) := by
    have hbase : UnitInv [] [] :=
      ⟨fun d hd => absurd hd (List.not_mem_nil d),
       fun r hr => absurd hr (List.not_mem_nil r)⟩
    have := unitInv_foldl records [] [] hbase
    simpa [pairMatch] using this
  rcases hslot with ⟨hb, hj, hboth, hrb, hrj⟩
  refine ⟨?_, ?_, ?_, ?_⟩
  · rintro ⟨h1, h2⟩
    exact hboth ⟨hb.mpr h1, hj.mpr h2⟩
  · intro rb h
    exact (hrb rb h).1
  · intro rj h
    exact (hrj rj h).1
  · exact hunit.1 c hc

/-- The Bouncy Castle record of the C3 witness scenario. -/
def c3RecordBC : ParsedBenchmark :=
  { id := "b1", category := BenchmarkCategory.Symmetric, algorithm := "Aes",
    operation := "encrypt", variant := "CBC", mode := none,
    cipherMode := some "CBC", padding := some "PKCS5", hashAlgorithm := none,
    iterations := none, jmhMode := JmhMode.thrpt, provider := Provider.BC,
    score := 120, scoreError := 1, scoreUnit := "ops/s" }

/-- The Jostle record of the C3 witness scenario, same key but a mismatched
score unit. -/
def c3RecordJostle : ParsedBenchmark :=
  { id := "b2", category := BenchmarkCategory.Symmetric, algorithm := "Aes",
    operation := "encrypt", variant := "CBC", mode := none,
    cipherMode := some "CBC", padding := some "PKCS5", hashAlgorithm := none,
    iterations := none, jmhMode := JmhMode.thrpt, provider := Provider.Jostle,
    score := 98, scoreError := 1, scoreUnit := "ms" }

/-- The records of the C3 witness scenario. -/
def c3Records : List ParsedBenchmark := [c3RecordBC, c3RecordJostle]

/-- The entity the matcher produces for the C3 witness scenario. -/
def c3Entity : BenchmarkComparison :=
  setSlot c3RecordJostle (setSlot c3RecordBC (emptyComparison c3RecordBC))

/-- C3 witness: the two records carry mismatched units, the entity is still
produced, and the specification holds of it — in particular its unit is the
first-seen one. -/
theorem pairMatch_spec_witness :
    c3RecordBC.scoreUnit ≠ c3RecordJostle.scoreUnit ∧
    c3Entity ∈ pairMatch c3Records ∧
    (¬(c3Entity.bcScore = none ∧ c3Entity.jostleScore = none) ∧
     (∀ rb, c3Entity.bcRaw = some rb → keyOf rb = keyOfComparison c3Entity) ∧
     (∀ rj, c3Entity.jostleRaw = some rj → keyOf rj = keyOfComparison c3Entity) ∧
     (∃ r0, c3Records.find? (fun r => keyOf r == keyOfComparison c3Entity) = some r0 ∧
       c3Entity.scoreUnit = r0.scoreUnit)) :=
  ⟨by decide, by decide, pairMatch_spec c3Records c3Entity (by decide)⟩

theorem pathString_cons_cons (a b : String) (l : List String) :
    pathString (a :: b :: l) = a ++ "/" ++ pathString (b :: l) := rfl

theorem pathString_concat (s : String) :
    ∀ segs, segs ≠ [] → pathString (segs ++ [s]) = pathString segs ++ "/" ++ s := by
  intro segs
  induction segs with
  | nil => intro h; cases h rfl
  | cons a l ih =>
    intro _
    cases l with
    | nil => rfl
    | cons b l2 =>
      have step : pathString ((a :: b :: l2) ++ [s]) =
          a ++ "/" ++ pathString ((b :: l2) ++ [s]) := rfl
      rw [step, ih (by simp), pathString_cons_cons]
      simp [String.append_assoc]

theorem pathString_head_le (a : String) (l : List String) :
    a.length ≤ (pathString (a :: l)).length := by
  cases l with
  | nil => simp [pathString]
  | cons b l2 =>
    rw [pathString_cons_cons, String.length_append, String.length_append]
    omega

theorem string_ne_empty_of_length (s : String) (h : s.length ≠ 0) : s ≠ "" := by
  intro he
  rw [he] at h
  exact h rfl

theorem pathString_head_ne (a : String) (l : List String) (ha : a ≠ "") :
    pathString (a :: l) ≠ "" := by
  apply string_ne_empty_of_length
  have h1 : a.length ≠ 0 := by
    intro hl
    apply ha
    cases a with
    | mk cl =>
      simp [String.length] at hl
      simp [hl]
  have h2 := pathString_head_le a l
  omega

theorem pathString_concat_ne (segs : List String) (s : String) (hne : segs ≠ []) :
    pathString (segs ++ [s]) ≠ "" := by
  rw [pathString_concat s segs hne]
  apply string_ne_empty_of_length
  rw [String.length_append, String.length_append]
  have : ("/" : String).length = 1 := rfl
  omega

theorem pathString_append_lt (e : String) :
    ∀ (ext segs : List String), segs ≠ [] →
      (pathString segs).length < (pathString (segs ++ e :: ext)).length := by
  intro ext
  induction ext generalizing e with
  | nil =>
    intro segs hne
    rw [pathString_concat e segs hne, String.length_append, String.length_append]
    have : ("/" : String).length = 1 := rfl
    omega
  | cons f ext2 ih =>
    intro segs hne
    have h1 : (pathString segs).length < (pathString (segs ++ [e])).length := by
      rw [pathString_concat e segs hne, String.length_append, String.length_append]
      have : ("/" : String).length = 1 := rfl
      omega
    have h2 := ih f (segs ++ [e]) (by simp)
    rw [List.append_assoc] at h2
    simp only [List.singleton_append] at h2
    omega

theorem pathString_append_ne (segs ext : List String) (hne : segs ≠ [])
    (hext : ext ≠ []) : pathString (segs ++ ext) ≠ pathString segs := by
  cases ext with
  | nil => cases hext rfl
  | cons e ext2 =>
    intro h
    have := pathString_append_lt e ext2 segs hne
    rw [h] at this
    omega

theorem entityPath_head (e : BenchmarkComparison) :
    ∃ rest, entityPath e = categoryName e.category :: rest ∧
      categoryName e.category ≠ "" := by
  refine ⟨_, rfl, ?_⟩
  cases e.category <;> decide

/-- The structural invariant of built hierarchy nodes, relative to the
segment list leading to the node: the stored path is the joined segments,
paths of nonroot nodes are nonempty, every attached entity's path extends
the node's segments, children satisfy the invariant one segment deeper, and
the comparisons are, up to permutation, the entities terminating exactly
here plus the concatenation of the children's comparisons. -/
inductive HInv : List String → HierarchyNode → Prop where
  | node (segs : List String) (nm p : String) (ch : List HierarchyNode)
      (cs : List BenchmarkComparison)
      (hpath : p = pathString segs)
      (hgood : segs = [] ∨ p ≠ "")
      (hcomp : ∀ e ∈ cs, ∃ ext, entityPath e = segs ++ ext)
      (hchild : ∀ c ∈ ch, HInv (segs ++ [c.name]) c)
      (hperm : List.Perm cs ((cs.filter (fun e => entityPath e == segs)) ++
        (ch.map HierarchyNode.comparisons).flatten)) :
      HInv segs (HierarchyNode.mk nm p ch cs)

theorem insertEntity_fields (e : BenchmarkComparison) (rest : List String)
    (t : HierarchyNode) :
    (insertEntity e rest t).name = t.name ∧
    (insertEntity e rest t).path = t.path ∧
    (insertEntity e rest t).comparisons = t.comparisons ++ [e] := by
  cases rest <;> cases t <;> simp [insertEntity]

theorem perm_shift {α : Type} (f g : List α) (a : α) :
    List.Perm ((f ++ g) ++ [a]) ((f ++ [a]) ++ g) := by
  rw [List.append_assoc, List.append_assoc]
  exact List.Perm.append_left f List.perm_append_comm

theorem inv_insert (e : BenchmarkComparison) :
    ∀ (rest segs : List String) (t : HierarchyNode), HInv segs t →
      entityPath e = segs ++ rest →
      (∀ s rest2, rest = s :: rest2 → segs = [] → s ≠ "") →
      HInv segs (insertEntity e rest t) := by
  intro rest
  induction rest with
  | nil =>
    intro segs t hinv hpath _
    cases hinv with
    | node _ nm p ch cs hp hg hcomp hchild hperm =>
      have hpe : entityPath e = segs := by simpa using hpath
      have heq : insertEntity e [] (HierarchyNode.mk nm p ch cs) =
          HierarchyNode.mk nm p ch (cs ++ [e]) := by
        simp [insertEntity]
      rw [heq]
      refine HInv.node segs nm p ch (cs ++ [e]) hp hg ?_ hchild ?_
      · intro e' he'
        rcases List.mem_append.mp he' with h | h
        · exact hcomp e' h
        · rcases List.mem_singleton.mp h with rfl
          exact ⟨[], by simpa using hpe⟩
      · have hpred : (entityPath e == segs) = true := by
          simp [hpe]
        rw [List.filter_append]
        have hfe : List.filter (fun e' => entityPath e' == segs) [e] = [e] := by
          simp [List.filter, hpred]
        rw [hfe]
        exact (hperm.append_right [e]).trans (perm_shift _ _ e)
  | cons s rest' ih =>
    intro segs t hinv hpath hroot
    cases hinv with
    | node _ nm p ch cs hp hg hcomp hchild hperm =>
      have hs_ne : segs = [] → s ≠ "" := fun hsegs => hroot s rest' rfl hsegs
      have heq : insertEntity e (s :: rest') (HierarchyNode.mk nm p ch cs) =
          HierarchyNode.mk nm p (insertChild e rest' s p ch) (cs ++ [e]) := by
        simp [insertEntity]
      rw [heq]
      have hnewpath : joinSeg p s = pathString (segs ++ [s]) := by
        by_cases hsegs : segs = []
        · subst hsegs
          simp only [pathString] at hp
          simp [joinSeg, hp]
          rfl
        · have hpne : p ≠ "" := by
            rcases hg with h | h
            · exact absurd h hsegs
            · exact h
          rw [joinSeg, if_neg hpne, pathString_concat s segs hsegs, hp]
      have hnewgood : segs ++ [s] = [] ∨ joinSeg p s ≠ "" := by
        right
        rw [hnewpath]
        by_cases hsegs : segs = []
        · subst hsegs
          simpa [pathString] using hs_ne rfl
        · exact pathString_concat_ne segs s hsegs
      have hnewborn : HInv (segs ++ [s]) (HierarchyNode.mk s (joinSeg p s) [] []) := by
        refine HInv.node (segs ++ [s]) s (joinSeg p s) [] [] hnewpath hnewgood
          ?_ ?_ ?_
        · intro e' he'
          cases he'
        · intro c hc
          cases hc
        · simp
      have main : ∀ (ch2 : List HierarchyNode), (∀ c ∈ ch2, HInv (segs ++ [c.name]) c) →
          (∀ c' ∈ insertChild e rest' s p ch2, HInv (segs ++ [c'.name]) c') ∧
          List.Perm (((insertChild e rest' s p ch2).map HierarchyNode.comparisons).flatten)
            ((ch2.map HierarchyNode.comparisons).flatten ++ [e]) := by
        intro ch2
        induction ch2 with
        | nil =>
          intro _
          obtain ⟨hn, hpth, hcmp⟩ :=
            insertEntity_fields e rest' (HierarchyNode.mk s (joinSeg p s) [] [])
          constructor
          · intro c' hc'
            simp only [insertChild, List.mem_singleton] at hc'
            subst hc'
            rw [hn]
            simp only [HierarchyNode.name_mk]
            apply ih (segs ++ [s]) (HierarchyNode.mk s (joinSeg p s) [] []) hnewborn
            · rw [List.append_assoc]
              simpa using hpath
            · intro s2 r2 _ habs
              exact absurd habs (by simp)
          · simp only [insertChild, List.map_cons, List.map_nil, List.flatten]
            rw [hcmp]
            simp
        | cons c0 ch3 ihc =>
          intro hch
          by_cases hname : c0.name = s
          · obtain ⟨hn, hpth, hcmp⟩ := insertEntity_fields e rest' c0
            have heqc : insertChild e rest' s p (c0 :: ch3) =
                insertEntity e rest' c0 :: ch3 := by
              simp [insertChild, hname]
            rw [heqc]
            constructor
            · intro c' hc'
              rcases List.mem_cons.mp hc' with rfl | hmem
              · rw [hn]
                apply ih (segs ++ [c0.name]) c0 (hch c0 (List.mem_cons_self c0 ch3))
                · rw [List.append_assoc, hname]
                  simpa using hpath
                · intro s2 r2 _ habs
                  exact absurd habs (by simp)
              · exact hch c' (List.mem_cons_of_mem c0 hmem)
            · simp only [List.map_cons, List.flatten_cons]
              rw [hcmp]
              rw [List.append_assoc]
              have h2 : List.Perm ([e] ++ (ch3.map HierarchyNode.comparisons).flatten)
                  ((ch3.map HierarchyNode.comparisons).flatten ++ [e]) :=
                List.perm_append_comm
              have h3 := h2.append_left c0.comparisons
              refine h3.trans ?_
              rw [← List.append_assoc]
          · have heqc : insertChild e rest' s p (c0 :: ch3) =
                c0 :: insertChild e rest' s p ch3 := by
              simp [insertChild, hname]
            rw [heqc]
            obtain ⟨hch', hflat'⟩ :=
              ihc (fun c hc => hch c (List.mem_cons_of_mem c0 hc))
            constructor
            · intro c' hc'
              rcases List.mem_cons.mp hc' with rfl | hmem
              · exact hch c' (List.mem_cons_self c' ch3)
              · exact hch' c' hmem
            · simp only [List.map_cons, List.flatten_cons]
              have h3 := hflat'.append_left c0.comparisons
              refine h3.trans ?_
              rw [← List.append_assoc]
      obtain ⟨hchildren, hflat⟩ := main ch hchild
      have hne : entityPath e ≠ segs := by
        rw [hpath]
        intro habs
        have := congrArg List.length habs
        simp at this
      refine HInv.node segs nm p _ (cs ++ [e]) hp hg ?_ hchildren ?_
      · intro e' he'
        rcases List.mem_append.mp he' with h | h
        · exact hcomp e' h
        · rcases List.mem_singleton.mp h with rfl
          exact ⟨s :: rest', hpath⟩
      · have hpred : (entityPath e == segs) = false := by
          simp [hne]
        rw [List.filter_append]
        have hfe : List.filter (fun e' => entityPath e' == segs) [e] = [] := by
          simp [List.filter, hpred]
        rw [hfe, List.append_nil]
        have h1 := hperm.append_right [e]
        rw [List.append_assoc] at h1
        exact h1.trans (hflat.symm.append_left _)

theorem hinv_root : HInv [] (HierarchyNode.mk "" "" [] []) := by
  refine HInv.node [] "" "" [] [] rfl (Or.inl rfl) ?_ ?_ ?_
  · intro e he
    cases he
  · intro c hc
    cases hc
  · simp

theorem hinv_fold (es : List BenchmarkComparison) :
    ∀ t, HInv [] t →
      HInv [] (es.foldl (fun t e => insertEntity e (entityPath e) t) t) := by
  induction es with
  | nil => intro t h; exact h
  | cons e es' ih =>
    intro t h
    apply ih
    apply inv_insert e (entityPath e) [] t h (by simp)
    intro s rest2 hcons _
    rcases entityPath_head e with ⟨rest, hpe, hcat⟩
    rw [hpe] at hcons
    injection hcons with h1 _
    rw [← h1]
    exact hcat

theorem hinv_build (es : List BenchmarkComparison) : HInv [] (buildHierarchy es) :=
  hinv_fold es _ hinv_root

theorem hinv_of_inTree (n : HierarchyNode) (t : HierarchyNode) (segs : List String)
    (hinv : HInv segs t) (hin : InTree n t) : ∃ nsegs, HInv nsegs n := by
  induction hin generalizing segs with
  | self => exact ⟨segs, hinv⟩
  | childStep c t' hcm hin' ih =>
    cases hinv with
    | node _ nm p ch cs hp hg hcomp hchild hperm =>
      exact ih (segs ++ [c.name]) (hchild c hcm)

theorem build_path (es : List BenchmarkComparison) :
    ∀ t, (es.foldl (fun t e => insertEntity e (entityPath e) t) t).path = t.path := by
  induction es with
  | nil => intro t; rfl
  | cons e es' ih =>
    intro t
    rw [List.foldl_cons, ih]
    exact (insertEntity_fields e (entityPath e) t).2.1

theorem build_comparisons (es : List BenchmarkComparison) :
    ∀ t, (es.foldl (fun t e => insertEntity e (entityPath e) t) t).comparisons =
      t.comparisons ++ es := by
  induction es with
  | nil => intro t; simp
  | cons e es' ih =>
    intro t
    rw [List.foldl_cons, ih]
    obtain ⟨_, _, hcmp⟩ := insertEntity_fields e (entityPath e) t
    rw [hcmp, List.append_assoc]
    rfl

/-- C2: in the built hierarchy, every node's comparisons equal (as a
multiset) the entities whose full path string is exactly the node's path
plus the concatenation of its children's comparisons; the root carries the
empty path and aggregates every comparison of the load. -/
theorem hierarchy_aggregation (es : List BenchmarkComparison) (n : HierarchyNode)
    (hn : InTree n (buildHierarchy es)) :
    List.Perm n.comparisons
      (n.comparisons.filter (fun e => pathString (entityPath e) == n.path) ++
        (n.children.map HierarchyNode.comparisons).flatten) ∧
    (buildHierarchy es).path = "" ∧
    (buildHierarchy es).comparisons = es := by
  have hroot := hinv_build es
  refine ⟨?_, ?_, ?_⟩
  · obtain ⟨nsegs, hinvn⟩ := hinv_of_inTree n (buildHierarchy es) [] hroot hn
    cases hinvn with
    | node _ nm p ch cs hp hg hcomp hchild hperm =>
      simp only [HierarchyNode.comparisons_mk, HierarchyNode.children_mk,
        HierarchyNode.path_mk]
      have hcong : List.filter (fun e => pathString (entityPath e) == p) cs =
          List.filter (fun e => entityPath e == nsegs) cs := by
        apply List.filter_congr
        intro e he
        rcases hcomp e he with ⟨ext, hext⟩
        by_cases hex : ext = []
        · subst hex
          rw [List.append_nil] at hext
          rw [hext, hp]
          simp
        · have hne1 : entityPath e ≠ nsegs := by
            rw [hext]
            intro habs
            have hlen := congrArg List.length habs
            rw [List.length_append] at hlen
            have hz : ext.length = 0 := by omega
            exact hex (List.length_eq_zero.mp hz)
          have hne2 : pathString (entityPath e) ≠ p := by
            rw [hp]
            by_cases hns : nsegs = []
            · subst hns
              rcases entityPath_head e with ⟨r2, hpe, hcat⟩
              rw [hpe]
              have hne := pathString_head_ne (categoryName e.category) r2 hcat
              simpa [pathString] using hne
            · rw [hext]
              exact pathString_append_ne nsegs ext hns hex
          have e1 : (pathString (entityPath e) == p) = false := by
            simp [hne2]
          have e2 : (entityPath e == nsegs) = false := by
            simp [hne1]
          rw [e1, e2]
      rw [hcong]
      exact hperm
  · rw [buildHierarchy, build_path]
    rfl
  · rw [buildHierarchy, build_comparisons]
    rfl

/-- A PQC entity used to exercise the built hierarchy. -/
def c2Entity : BenchmarkComparison :=
  { id := "bench-c2", category := BenchmarkCategory.PQC,
    algorithm := "MlKem", operation := "encapsulate", variant := "768",
    mode := none, cipherMode := none, padding := none,
    hashAlgorithm := none, iterations := none, jmhMode := JmhMode.thrpt,
    bcScore := some 120, bcError := some 1, jostleScore := some 98,
    jostleError := some 1, scoreUnit := "ops/s", bcRaw := none,
    jostleRaw := none }

/-- The entity list of the C2 witness. -/
def c2Entities : List BenchmarkComparison := [c2Entity]

/-- C2 witness: the aggregation invariant applied at the root of the tree
built from a concrete entity list. -/
theorem hierarchy_aggregation_witness :
    InTree (buildHierarchy c2Entities) (buildHierarchy c2Entities) ∧
    (List.Perm (buildHierarchy c2Entities).comparisons
      ((buildHierarchy c2Entities).comparisons.filter
        (fun e => pathString (entityPath e) == (buildHierarchy c2Entities).path) ++
        ((buildHierarchy c2Entities).children.map HierarchyNode.comparisons).flatten) ∧
     (buildHierarchy c2Entities).path = "" ∧
     (buildHierarchy c2Entities).comparisons = c2Entities) :=
  ⟨InTree.self, hierarchy_aggregation c2Entities (buildHierarchy c2Entities) InTree.self⟩
